import Mathlib

/-!
Verification development for the 2da-table-viewer edit-overlay and
reconciliation engine (`src/ui-qt/src/MainWindow.cpp`, `TablePanel.cpp`).

The C++ state is embedded shallowly:
* `PendingEditInfo` mirrors the struct of the same name (`DetailsPanel.h`);
  its `rowId` field is a 32-bit `int` assigned from `int64_t` row ids, so
  every store narrows through `toInt32` while key comparisons promote the
  stored value. The overlay `m_pendingEdits` is a `List PendingEditInfo`
  kept in insertion order, and the forward stack `m_undoStack` (popped by
  redo) is another list.
* UI-only effects (dialogs, table widget repaints, status-bar rendering) are
  dropped; status-bar text is returned as the `String` component of results.
* Qt JSON is embedded as the `Json` inductive; `QJsonValue::toDouble` on an
  integer JSON number passes through an IEEE-754 double, modelled by
  `intToDouble` (exact round-to-nearest-even on the int64 range).
-/

namespace TableViewer

/-- Mirrors `PendingEditInfo` from `DetailsPanel.h` (lines 18-22):
`{ int rowId; QString column; QString value; }`. The `rowId` field is a
32-bit `int`, although every producer of row ids is `int64_t`
(`ffi_table_get_row_id`, `onEditRequested`, the patch decoder): the stores
`edit.rowId = rowId` narrow to 32 bits, while the comparisons
`m_pendingEdits[i].rowId == rowId` promote the stored `int` back to
`int64_t`. The Lean field is an `Int` constrained by construction: every
store site applies `toInt32`. -/
structure PendingEditInfo where
  rowId : Int
  column : String
  value : String
  deriving DecidableEq, Repr

/-- Two's-complement narrowing of an `int64_t` to the struct's 32-bit `int`
field (the conversion performed by `edit.rowId = rowId` at
`MainWindow.cpp:622` and `884`). -/
def toInt32 (n : Int) : Int :=
  (n + 2 ^ 31) % 2 ^ 32 - 2 ^ 31

/-- The (row id, column name) key test used by every linear scan over
`m_pendingEdits` in `MainWindow.cpp`
(`edit.rowId == rowId && edit.column == colName`). -/
def keyMatch (e : PendingEditInfo) (rowId : Int) (column : String) : Bool :=
  e.rowId == rowId && e.column == column

/-- `findPendingEdit` lambda from `MainWindow::onExport`: linear scan of
`m_pendingEdits`, first match wins. This is the overlay's `getEdit`. -/
def findPendingEdit (ov : List PendingEditInfo) (rowId : Int) (column : String) :
    Option String :=
  (ov.find? (fun e => keyMatch e rowId column)).map (·.value)

/-- Whether the overlay holds an entry for a key (the `found` flag of the
duplicate-check loops in `onEditRequested` / `onImportPatch`). -/
def containsKey (ov : List PendingEditInfo) (rowId : Int) (column : String) : Bool :=
  ov.any (fun e => keyMatch e rowId column)

/-- Number of overlay entries for one key (for stating the uniqueness
invariant). -/
def countKey (ov : List PendingEditInfo) (rowId : Int) (column : String) : Nat :=
  ov.countP (fun e => keyMatch e rowId column)

/-- The shared insert-or-update loop of `MainWindow::onEditRequested`
(lines 872-887) and of the per-entry body of `MainWindow::onImportPatch`
(lines 609-627): update the first entry with the same key in place, else
append at the end. The comparison uses the caller's un-narrowed `int64_t`
row id against the stored (already narrowed) field, but the appended entry
stores the row id narrowed to the struct's 32-bit `int`. The `Bool` is
`true` when the entry was newly appended (import's `++imported` branch). -/
def mergeOne : List PendingEditInfo → PendingEditInfo → List PendingEditInfo × Bool
  | [], e => ([{ e with rowId := toInt32 e.rowId }], true)
  | x :: xs, e =>
    if keyMatch x e.rowId e.column then
      ({ x with value := e.value } :: xs, false)
    else
      let r := mergeOne xs e
      (x :: r.1, r.2)

/-- Overlay after one insert-or-update. -/
def setEditList (ov : List PendingEditInfo) (e : PendingEditInfo) :
    List PendingEditInfo :=
  (mergeOne ov e).1

/-- Fold of `mergeOne` over a list of entries (overlay component only). -/
def applyEdits (ov : List PendingEditInfo) (es : List PendingEditInfo) :
    List PendingEditInfo :=
  es.foldl setEditList ov

/-- The import loop of `MainWindow::onImportPatch` with its `imported` and
`updated` counters: `(overlay, imported, updated)`. -/
def mergeEntries (es : List PendingEditInfo) (ov : List PendingEditInfo) :
    List PendingEditInfo × Nat × Nat :=
  es.foldl
    (fun acc e =>
      let r := mergeOne acc.1 e
      (r.1, acc.2.1 + (if r.2 then 1 else 0), acc.2.2 + (if r.2 then 0 else 1)))
    (ov, 0, 0)

/-- One step of the import loop on its `(overlay, imported, updated)`
accumulator (the body of the `for` over `edits` in `onImportPatch`). -/
def mergeStep (acc : List PendingEditInfo × Nat × Nat) (e : PendingEditInfo) :
    List PendingEditInfo × Nat × Nat :=
  let r := mergeOne acc.1 e
  (r.1, acc.2.1 + (if r.2 then 1 else 0), acc.2.2 + (if r.2 then 0 else 1))

/-- The value the most recent operation in `es` assigned to a key, if any
(spec-side notion used to state "getEdit returns the most recently set
value"). -/
def lastSetValue (es : List PendingEditInfo) (rowId : Int) (column : String) :
    Option String :=
  es.foldl (fun acc e => if keyMatch e rowId column then some e.value else acc) none

/-- Entries of `es` whose key differs from `(r, c)` (proof-side helper for
the merge characterization). -/
def removeKey (es : List PendingEditInfo) (r : Int) (c : String) :
    List PendingEditInfo :=
  es.filter (fun e => !(keyMatch e r c))

/-- The `MainWindow` state fields the claims are about: `m_pendingEdits`,
`m_undoStack`, `m_currentFamily`, `m_rootPath` and whether `m_scanResult`
is non-null. -/
structure EditorState where
  pendingEdits : List PendingEditInfo
  undoStack : List PendingEditInfo
  currentFamily : String
  rootPath : String
  scanLoaded : Bool
  deriving DecidableEq, Repr

/-- State at application start. -/
def initState : EditorState :=
  { pendingEdits := [], undoStack := [], currentFamily := "", rootPath := ""
    scanLoaded := false }

/-- `MainWindow::onEditRequested` (lines 870-894): update the first entry
with the same key in place, otherwise append; `m_undoStack` is untouched. -/
def onEditRequested (st : EditorState) (rowId : Int) (column value : String) :
    EditorState :=
  { st with pendingEdits := setEditList st.pendingEdits ⟨rowId, column, value⟩ }

/-- `MainWindow::onUndo` (lines 754-791): empty overlay is a soft no-op with
a status message; otherwise `takeLast` from `m_pendingEdits` and append it
to `m_undoStack`. -/
def onUndo (st : EditorState) : EditorState × String :=
  match st.pendingEdits.getLast? with
  | none => (st, "Nothing to undo")
  | some last =>
    ({ st with pendingEdits := st.pendingEdits.dropLast
               undoStack := st.undoStack ++ [last] },
     "Undid edit: Row " ++ toString last.rowId ++ ", " ++ last.column)

/-- `MainWindow::onRedo` (lines 793-830): empty `m_undoStack` is a soft no-op
with a status message; otherwise `takeLast` from `m_undoStack` and append it
to `m_pendingEdits` (no duplicate check). -/
def onRedo (st : EditorState) : EditorState × String :=
  match st.undoStack.getLast? with
  | none => (st, "Nothing to redo")
  | some edit =>
    ({ st with pendingEdits := st.pendingEdits ++ [edit]
               undoStack := st.undoStack.dropLast },
     "Redid edit: Row " ++ toString edit.rowId ++ ", " ++ edit.column)

/-- `MainWindow::onFamilySelected` (lines 842-862): early return when no scan
result; otherwise only `m_currentFamily` (and UI panels) change —
`m_pendingEdits` and `m_undoStack` are not touched. -/
def onFamilySelected (st : EditorState) (familyName : String) : EditorState :=
  if st.scanLoaded then { st with currentFamily := familyName } else st

/-- `MainWindow::loadFolder` (lines 263-301): `m_rootPath` is set first; on a
failed scan the function returns before clearing anything; on success
`m_currentFamily` and `m_pendingEdits` are cleared but `m_undoStack` is not.
`scanOk` abstracts whether `scanDirectory` returned a handle. -/
def loadFolder (st : EditorState) (path : String) (scanOk : Bool) : EditorState :=
  if scanOk then
    { st with rootPath := path, scanLoaded := true, currentFamily := ""
              pendingEdits := [] }
  else
    { st with rootPath := path, scanLoaded := false }

/-! ## Qt JSON embedding and the patch codec -/

/-- Qt JSON values as consumed by `QJsonDocument` / `QJsonObject` /
`QJsonValue` in `MainWindow.cpp`. Integer JSON numbers are carried exactly
(as `QJsonDocument` does for numbers in the int64 range); the lossy
`toDouble` conversion is modelled separately by `intToDouble`. -/
inductive Json where
  | null : Json
  | bool : Bool → Json
  | num : Int → Json
  | str : String → Json
  | arr : List Json → Json
  | obj : List (String × Json) → Json

/-- `QJsonObject::operator[]` field lookup (objects have unique keys). -/
def findField (fields : List (String × Json)) (key : String) : Option Json :=
  (fields.find? (fun f => f.1 == key)).map (·.2)

/-- Field access on a `Json` value; non-objects have no fields
(`QJsonValue(Undefined)`). -/
def getField (j : Json) (key : String) : Option Json :=
  match j with
  | .obj fields => findField fields key
  | _ => none

/-- `QJsonValue::toString()`: the string when the value is a string,
otherwise the default `QString()` (empty). -/
def jsonToString (j : Option Json) : String :=
  match j with
  | some (.str s) => s
  | _ => ""

/-- `QJsonValue::toArray()`: the elements when the value is an array,
otherwise the default empty array. -/
def jsonToArray (j : Option Json) : List Json :=
  match j with
  | some (.arr xs) => xs
  | _ => []

/-- `QJsonValue::toObject()`: the fields when the value is an object,
otherwise the default empty object. -/
def jsonToObjFields (j : Json) : List (String × Json) :=
  match j with
  | .obj fields => fields
  | _ => []

/-- Smallest shift `e` with `n < 2 ^ (53 + e)`, i.e. the exponent at which
`n` rounds into a 53-bit IEEE-754 significand. Total via a bound of 128
that covers every integer near the int64 range of `row_id`. -/
def pickE (n : Nat) : Nat :=
  ((List.range 128).find? (fun e => n < 2 ^ (53 + e))).getD 128

/-- Round `n` to a multiple of `2 ^ e`, ties to even — IEEE-754
round-to-nearest-even on the significand. -/
def roundAtE (n e : Nat) : Nat :=
  let p := 2 ^ e
  let q := n / p
  let r := n % p
  if 2 * r < p then q * p
  else if 2 * r > p then (q + 1) * p
  else if q % 2 = 0 then q * p else (q + 1) * p

/-- The exact integer value of `(double)n` for a natural `n` in the int64
range: identity below `2 ^ 53`, round-to-nearest-even above. -/
def natToDouble (n : Nat) : Nat :=
  if n ≤ 2 ^ 53 then n else roundAtE n (pickE n)

/-- The exact integer value of converting an int64 `n` to an IEEE-754
double, as `QJsonValue::toDouble` does before `onImportPatch` casts the
result back with `static_cast<int64_t>`. -/
def intToDouble (n : Int) : Int :=
  if n < 0 then -(natToDouble n.natAbs : Nat) else (natToDouble n.natAbs : Nat)

/-- `QJsonValue::toDouble()` on a patch field followed by the
`static_cast<int64_t>` in `onImportPatch` line 605: numbers pass through a
double; everything else defaults to `0`. -/
def jsonToInt (j : Option Json) : Int :=
  match j with
  | some (.num n) => intToDouble n
  | _ => 0

/-- Patch encoding from `MainWindow::onSavePatch` (lines 511-523): a JSON
object with `family` and the overlay's edits in insertion order as
`{row_id, column, value}` objects. -/
def savePatch (ov : List PendingEditInfo) (family : String) : Json :=
  Json.obj
    [("family", Json.str family),
     ("edits", Json.arr (ov.map (fun e =>
        Json.obj
          [("row_id", Json.num e.rowId),
           ("column", Json.str e.column),
           ("value", Json.str e.value)])))]

/-- Decoding of one edit entry in `MainWindow::onImportPatch`
(lines 604-607): missing or non-numeric `row_id` reads as `0`, missing or
non-string `column` / `value` read as the empty string. -/
def decodeEntry (j : Json) : PendingEditInfo :=
  let fields := jsonToObjFields j
  { rowId := jsonToInt (findField fields "row_id")
    column := jsonToString (findField fields "column")
    value := jsonToString (findField fields "value") }

/-- Decoding of a patch document's edit list (`root["edits"].toArray()`
mapped through `decodeEntry`); a missing or non-array `edits` decodes to
the empty list. -/
def decodeEntries (root : Json) : List PendingEditInfo :=
  (jsonToArray (getField root "edits")).map decodeEntry

/-- `MainWindow::onImportPatch` (lines 541-662) on the modelled state.
`doc` is `none` when `QJsonDocument::fromJson` reported a parse error;
`proceed` is the user's answer to the family-mismatch confirmation. The
merge path clears `m_undoStack` once, after the loop. -/
def importPatch (doc : Option Json) (proceed : Bool) (st : EditorState) :
    EditorState × String :=
  if st.currentFamily = "" then (st, "Please select a family first")
  else
    match doc with
    | none => (st, "Invalid JSON")
    | some root =>
      let patchFamily := jsonToString (getField root "family")
      if patchFamily ≠ st.currentFamily ∧ ¬proceed then (st, "")
      else
        let m := mergeEntries (decodeEntries root) st.pendingEdits
        ({ st with pendingEdits := m.1, undoStack := [] },
         "Imported " ++ toString m.2.1 ++ " edits" ++
           (if m.2.2 > 0 then ", updated " ++ toString m.2.2 ++ " existing"
            else ""))

/-! ## Resolved-table accessor, export compositing, pagination -/

/-- `FfiCellValue` (`da_ffi.h`): tag 0 = empty, 1 = int64, 2 = double,
3 = UTF-8 string. -/
inductive CellValue where
  | empty : CellValue
  | int : Int → CellValue
  | float : Float → CellValue
  | str : String → CellValue

/-- The read-only resolved-table accessor handle: the parts of the FFI
surface (`tableRowCount`, `tableColumnCount`, `tableGetRowId`,
`tableGetColumn`, `tableGetCell`) that `onExport` walks. -/
structure ResolvedTable where
  rowCount : Nat
  colCount : Nat
  rowId : Nat → Int
  colName : Nat → String
  cell : Nat → Nat → CellValue

/-- The value-to-text switch of `onExport` (lines 420-425 / 463-468):
integers via `QString::number`, floats via `QString::number(x, 'g', 6)`
(kept abstract as `fmt`, the claims never depend on float text), strings
verbatim, empty cells as the empty string. -/
def formatCellValue (fmt : Float → String) : CellValue → String
  | .empty => ""
  | .int n => toString n
  | .float f => fmt f
  | .str s => s

/-- Whether the export loop takes the cell from the overlay
(`editResult.first` in `onExport`). -/
def cellEdited (t : ResolvedTable) (edits : List PendingEditInfo)
    (r c : Nat) : Bool :=
  (findPendingEdit edits (t.rowId r) (t.colName c)).isSome

/-- The effective exported text of one cell: the pending edit when present,
otherwise the accessor's value through the type switch. -/
def exportCellValue (fmt : Float → String) (t : ResolvedTable)
    (edits : List PendingEditInfo) (r c : Nat) : String :=
  match findPendingEdit edits (t.rowId r) (t.colName c) with
  | some v => v
  | none => formatCellValue fmt (t.cell r c)

/-- The inner (per-column) loop body of `MainWindow::onExport`: append the
cell's effective text and bump `editsApplied` when it came from the
overlay. -/
def exportColStep (fmt : Float → String) (t : ResolvedTable)
    (edits : List PendingEditInfo) (r : Nat) (a : List String × Nat)
    (c : Nat) : List String × Nat :=
  (a.1 ++ [exportCellValue fmt t edits r c],
   a.2 + (if cellEdited t edits r c then 1 else 0))

/-- The outer (per-row) loop body of `MainWindow::onExport`: run the column
loop with the running counter, emit the row. -/
def exportRowStep (fmt : Float → String) (t : ResolvedTable)
    (edits : List PendingEditInfo) (acc : List (List String) × Nat)
    (r : Nat) : List (List String) × Nat :=
  let rowRes := (List.range t.colCount).foldl (exportColStep fmt t edits r)
    (([] : List String), acc.2)
  (acc.1 ++ [rowRes.1], rowRes.2)

/-- The nested export loops of `MainWindow::onExport` (lines 447-476) over
the full unfiltered row set, producing the emitted grid of cell texts and
the final `editsApplied` counter which is incremented once per substituted
cell. -/
def exportTable (fmt : Float → String) (t : ResolvedTable)
    (edits : List PendingEditInfo) : List (List String) × Nat :=
  (List.range t.rowCount).foldl (exportRowStep fmt t edits) ([], 0)

/-- `TablePanel::updatePagination` / `onNextPage` page-count formula
(lines 330-331 and 395): `(m_totalRows + m_rowsPerPage - 1) / m_rowsPerPage`,
bumped to 1 when it is 0. -/
def totalPages (totalRows rowsPerPage : Nat) : Nat :=
  let tp := (totalRows + rowsPerPage - 1) / rowsPerPage
  if tp = 0 then 1 else tp

/-- The page slice of `TablePanel::populateTable` (lines 213-219): row
positions `i` with `startRow ≤ i < min (startRow + m_rowsPerPage)
m_totalRows`, read out of `rowsToShow`. -/
def pageRows (rowsToShow : List Nat) (currentPage rowsPerPage : Nat) :
    List Nat :=
  let totalRows := rowsToShow.length
  let startRow := currentPage * rowsPerPage
  let endRow := min (startRow + rowsPerPage) totalRows
  (List.range' startRow (endRow - startRow)).map (fun i => rowsToShow.getD i 0)

/-! ## Lemmas about the overlay operations -/

theorem keyMatch_self (e : PendingEditInfo) : keyMatch e e.rowId e.column = true := by
  simp [keyMatch]

theorem keyMatch_comm_true {x e : PendingEditInfo}
    (h : keyMatch x e.rowId e.column = true) :
    keyMatch e x.rowId x.column = true := by
  simp only [keyMatch, Bool.and_eq_true, beq_iff_eq] at h ⊢
  exact ⟨h.1.symm, h.2.symm⟩

theorem keyMatch_comm_false {x e : PendingEditInfo}
    (h : keyMatch x e.rowId e.column = false) :
    keyMatch e x.rowId x.column = false := by
  cases hx : keyMatch e x.rowId x.column with
  | false => rfl
  | true => rw [keyMatch_comm_true hx] at h; cases h

theorem narrow_self (e : PendingEditInfo) (h : toInt32 e.rowId = e.rowId) :
    ({ e with rowId := toInt32 e.rowId } : PendingEditInfo) = e := by
  rw [h]

theorem setEditList_nil (e : PendingEditInfo) (h : toInt32 e.rowId = e.rowId) :
    setEditList [] e = [e] := by
  show [({ e with rowId := toInt32 e.rowId } : PendingEditInfo)] = [e]
  rw [narrow_self e h]

theorem find_self_of_mergeOne (ov : List PendingEditInfo) (e : PendingEditInfo)
    (hw : toInt32 e.rowId = e.rowId) :
    findPendingEdit (setEditList ov e) e.rowId e.column = some e.value := by
  induction ov with
  | nil =>
    rw [setEditList_nil e hw]
    simp [findPendingEdit, List.find?, keyMatch_self]
  | cons x xs ih =>
    by_cases h : keyMatch x e.rowId e.column = true
    · have hupd : keyMatch { x with value := e.value } e.rowId e.column = true := h
      simp [setEditList, mergeOne, h, findPendingEdit, List.find?, hupd]
    · simp only [Bool.not_eq_true] at h
      simpa [setEditList, mergeOne, h, findPendingEdit, List.find?] using ih

theorem find_ne_of_mergeOne (ov : List PendingEditInfo) (e : PendingEditInfo)
    (r : Int) (c : String) (hw : toInt32 e.rowId = e.rowId)
    (h : ¬(e.rowId = r ∧ e.column = c)) :
    findPendingEdit (setEditList ov e) r c = findPendingEdit ov r c := by
  induction ov with
  | nil =>
    have : keyMatch e r c = false := by
      simp only [keyMatch, Bool.and_eq_false_iff]
      rcases not_and_or.mp h with h1 | h1
      · exact Or.inl (beq_eq_false_iff_ne.mpr h1)
      · exact Or.inr (beq_eq_false_iff_ne.mpr h1)
    rw [setEditList_nil e hw]
    simp [findPendingEdit, List.find?, this]
  | cons x xs ih =>
    by_cases hx : keyMatch x e.rowId e.column = true
    · -- head updated in place; its key equals `e`'s key, hence differs from (r, c)
      have hkey : x.rowId = e.rowId ∧ x.column = e.column := by
        simpa [keyMatch] using hx
      have hxrc : keyMatch x r c = false := by
        simp only [keyMatch, Bool.and_eq_false_iff]
        rcases not_and_or.mp h with h1 | h1
        · exact Or.inl (beq_eq_false_iff_ne.mpr (hkey.1 ▸ h1))
        · exact Or.inr (beq_eq_false_iff_ne.mpr (hkey.2 ▸ h1))
      have hxrc' : keyMatch { x with value := e.value } r c = false := hxrc
      simp [setEditList, mergeOne, hx, findPendingEdit, List.find?, hxrc, hxrc']
    · simp only [Bool.not_eq_true] at hx
      by_cases hxr : keyMatch x r c = true
      · simp [setEditList, mergeOne, hx, findPendingEdit, List.find?, hxr]
      · simp only [Bool.not_eq_true] at hxr
        simpa [setEditList, mergeOne, hx, findPendingEdit, List.find?, hxr] using ih

theorem countKey_mergeOne_self (ov : List PendingEditInfo) (e : PendingEditInfo)
    (hw : toInt32 e.rowId = e.rowId) :
    countKey (setEditList ov e) e.rowId e.column
      = max (countKey ov e.rowId e.column) 1 := by
  induction ov with
  | nil =>
    rw [setEditList_nil e hw]
    simp [countKey, List.countP_cons, keyMatch_self]
  | cons x xs ih =>
    by_cases h : keyMatch x e.rowId e.column = true
    · have hupd : keyMatch { x with value := e.value } e.rowId e.column = true := h
      have hstep : setEditList (x :: xs) e = { x with value := e.value } :: xs := by
        simp [setEditList, mergeOne, h]
      rw [hstep]
      simp only [countKey, List.countP_cons, hupd, h, if_true]
      omega
    · have h' : keyMatch x e.rowId e.column = false := by
        simpa using h
      have hstep : setEditList (x :: xs) e = x :: setEditList xs e := by
        simp [setEditList, mergeOne, h']
      rw [hstep]
      simp only [countKey, List.countP_cons, h', Bool.false_eq_true, if_false] at ih ⊢
      omega

theorem countKey_mergeOne_ne (ov : List PendingEditInfo) (e : PendingEditInfo)
    (r : Int) (c : String) (hw : toInt32 e.rowId = e.rowId)
    (h : ¬(e.rowId = r ∧ e.column = c)) :
    countKey (setEditList ov e) r c = countKey ov r c := by
  have he : keyMatch e r c = false := by
    simp only [keyMatch, Bool.and_eq_false_iff]
    rcases not_and_or.mp h with h1 | h1
    · exact Or.inl (beq_eq_false_iff_ne.mpr h1)
    · exact Or.inr (beq_eq_false_iff_ne.mpr h1)
  induction ov with
  | nil =>
    rw [setEditList_nil e hw]
    simp [countKey, List.countP_cons, he]
  | cons x xs ih =>
    by_cases hx : keyMatch x e.rowId e.column = true
    · have hkey : x.rowId = e.rowId ∧ x.column = e.column := by
        simpa [keyMatch] using hx
      have hxrc : keyMatch x r c = false := by
        simp only [keyMatch, Bool.and_eq_false_iff]
        rcases not_and_or.mp h with h1 | h1
        · exact Or.inl (beq_eq_false_iff_ne.mpr (hkey.1 ▸ h1))
        · exact Or.inr (beq_eq_false_iff_ne.mpr (hkey.2 ▸ h1))
      have hxrc' : keyMatch { x with value := e.value } r c = false := hxrc
      have hstep : setEditList (x :: xs) e = { x with value := e.value } :: xs := by
        simp [setEditList, mergeOne, hx]
      rw [hstep]
      simp [countKey, List.countP_cons, hxrc, hxrc']
    · have hx' : keyMatch x e.rowId e.column = false := by
        simpa using hx
      have hstep : setEditList (x :: xs) e = x :: setEditList xs e := by
        simp [setEditList, mergeOne, hx']
      rw [hstep]
      simp only [countKey, List.countP_cons] at ih ⊢
      omega

theorem countKey_mergeOne_le (ov : List PendingEditInfo) (e : PendingEditInfo)
    (r : Int) (c : String) (hw : toInt32 e.rowId = e.rowId) :
    countKey (setEditList ov e) r c ≤ max (countKey ov r c) 1 := by
  by_cases h : e.rowId = r ∧ e.column = c
  · rcases h with ⟨h1, h2⟩
    subst h1; subst h2
    exact le_of_eq (countKey_mergeOne_self ov e hw)
  · rw [countKey_mergeOne_ne ov e r c hw h]
    exact le_max_left _ _

theorem countKey_applyEdits_le (es : List PendingEditInfo) :
    ∀ (ov : List PendingEditInfo) (r : Int) (c : String),
      (∀ x ∈ es, toInt32 x.rowId = x.rowId) →
      countKey (applyEdits ov es) r c ≤ max (countKey ov r c) 1 := by
  induction es with
  | nil => intro ov r c _; exact le_max_left _ _
  | cons e rest ih =>
    intro ov r c hall
    have hrest : ∀ x ∈ rest, toInt32 x.rowId = x.rowId :=
      fun x hx => hall x (List.mem_cons_of_mem e hx)
    have h1 : countKey (applyEdits (setEditList ov e) rest) r c
        ≤ max (countKey (setEditList ov e) r c) 1 :=
      ih (setEditList ov e) r c hrest
    have h2 : countKey (setEditList ov e) r c ≤ max (countKey ov r c) 1 :=
      countKey_mergeOne_le ov e r c (hall e (List.mem_cons_self e rest))
    calc countKey (applyEdits ov (e :: rest)) r c
        = countKey (applyEdits (setEditList ov e) rest) r c := by rfl
      _ ≤ max (countKey (setEditList ov e) r c) 1 := h1
      _ ≤ max (max (countKey ov r c) 1) 1 := by omega
      _ = max (countKey ov r c) 1 := by omega

theorem find_applyEdits (es : List PendingEditInfo) :
    ∀ (ov : List PendingEditInfo) (r : Int) (c : String),
      (∀ x ∈ es, toInt32 x.rowId = x.rowId) →
      findPendingEdit (applyEdits ov es) r c
        = (es.foldl (fun acc e => if keyMatch e r c then some e.value else acc)
            (findPendingEdit ov r c)) := by
  induction es with
  | nil => intro ov r c _; rfl
  | cons e rest ih =>
    intro ov r c hall
    have hw : toInt32 e.rowId = e.rowId := hall e (List.mem_cons_self e rest)
    have hrest : ∀ x ∈ rest, toInt32 x.rowId = x.rowId :=
      fun x hx => hall x (List.mem_cons_of_mem e hx)
    have hstep : applyEdits ov (e :: rest) = applyEdits (setEditList ov e) rest := rfl
    rw [hstep, ih (setEditList ov e) r c hrest]
    by_cases h : keyMatch e r c = true
    · have hkey : e.rowId = r ∧ e.column = c := by simpa [keyMatch] using h
      rw [List.foldl_cons]
      simp only [h, if_true]
      rw [← hkey.1, ← hkey.2, find_self_of_mergeOne ov e hw]
    · have h' : keyMatch e r c = false := by simpa using h
      have hne : ¬(e.rowId = r ∧ e.column = c) := by
        intro hc
        rw [keyMatch, hc.1, hc.2] at h'
        simp at h'
      rw [List.foldl_cons]
      simp only [h', Bool.false_eq_true, if_false]
      rw [find_ne_of_mergeOne ov e r c hw hne]

theorem findPendingEdit_eq_none_iff (ov : List PendingEditInfo) (r : Int)
    (c : String) :
    findPendingEdit ov r c = none ↔ containsKey ov r c = false := by
  induction ov with
  | nil => simp [findPendingEdit, containsKey]
  | cons x xs ih =>
    by_cases h : keyMatch x r c = true
    · simp [findPendingEdit, containsKey, List.find?, List.any_cons, h]
    · have h' : keyMatch x r c = false := by simpa using h
      rw [show findPendingEdit (x :: xs) r c = findPendingEdit xs r c by
            simp [findPendingEdit, List.find?, h'],
          show containsKey (x :: xs) r c = containsKey xs r c by
            simp [containsKey, List.any_cons, h']]
      exact ih

theorem mergeOne_not_found (ov : List PendingEditInfo) (e : PendingEditInfo)
    (h : containsKey ov e.rowId e.column = false) :
    mergeOne ov e = (ov ++ [{ e with rowId := toInt32 e.rowId }], true) := by
  induction ov with
  | nil => rfl
  | cons x xs ih =>
    simp only [containsKey, List.any_cons, Bool.or_eq_false_iff] at h
    have hx : keyMatch x e.rowId e.column = false := h.1
    have hxs : containsKey xs e.rowId e.column = false := h.2
    simp [mergeOne, hx, ih hxs]

theorem findPendingEdit_append_of_none (ov ov' : List PendingEditInfo)
    (r : Int) (c : String) (h : findPendingEdit ov r c = none) :
    findPendingEdit (ov ++ ov') r c = findPendingEdit ov' r c := by
  induction ov with
  | nil => rfl
  | cons x xs ih =>
    by_cases hx : keyMatch x r c = true
    · simp [findPendingEdit, List.find?, hx] at h
    · have hx' : keyMatch x r c = false := by simpa using hx
      simp only [findPendingEdit, List.find?, hx'] at h ⊢
      exact ih h

theorem containsKey_mergeOne_self (ov : List PendingEditInfo)
    (e : PendingEditInfo) (hw : toInt32 e.rowId = e.rowId) :
    containsKey (setEditList ov e) e.rowId e.column = true := by
  induction ov with
  | nil =>
    rw [setEditList_nil e hw]
    simp [containsKey, List.any_cons, keyMatch_self]
  | cons x xs ih =>
    by_cases h : keyMatch x e.rowId e.column = true
    · have hupd : keyMatch { x with value := e.value } e.rowId e.column = true := h
      have hstep : setEditList (x :: xs) e = { x with value := e.value } :: xs := by
        simp [setEditList, mergeOne, h]
      rw [hstep]
      simp [containsKey, List.any_cons, hupd]
    · have h' : keyMatch x e.rowId e.column = false := by simpa using h
      have hstep : setEditList (x :: xs) e = x :: setEditList xs e := by
        simp [setEditList, mergeOne, h']
      rw [hstep]
      simp only [containsKey, List.any_cons, Bool.or_eq_true] at ih ⊢
      exact Or.inr ih

theorem containsKey_mergeOne_mono (ov : List PendingEditInfo)
    (e : PendingEditInfo) (r : Int) (c : String)
    (h : containsKey ov r c = true) :
    containsKey (setEditList ov e) r c = true := by
  induction ov with
  | nil => simp [containsKey] at h
  | cons x xs ih =>
    simp only [containsKey, List.any_cons, Bool.or_eq_true] at h
    by_cases hk : keyMatch x e.rowId e.column = true
    · have hstep : setEditList (x :: xs) e = { x with value := e.value } :: xs := by
        simp [setEditList, mergeOne, hk]
      rw [hstep]
      rcases h with h | h
      · have hv : keyMatch { x with value := e.value } r c = true := h
        simp [containsKey, List.any_cons, hv]
      · simp [containsKey, List.any_cons, h]
    · have hk' : keyMatch x e.rowId e.column = false := by simpa using hk
      have hstep : setEditList (x :: xs) e = x :: setEditList xs e := by
        simp [setEditList, mergeOne, hk']
      rw [hstep]
      simp only [containsKey, List.any_cons, Bool.or_eq_true]
      rcases h with h | h
      · exact Or.inl h
      · exact Or.inr (ih h)

theorem containsKey_applyEdits_mono (es : List PendingEditInfo)
    (ov : List PendingEditInfo) (r : Int) (c : String)
    (h : containsKey ov r c = true) :
    containsKey (applyEdits ov es) r c = true := by
  induction es generalizing ov with
  | nil => exact h
  | cons e rest ih => exact ih (setEditList ov e) (containsKey_mergeOne_mono ov e r c h)

theorem containsKey_applyEdits_mem (es : List PendingEditInfo) :
    ∀ (ov : List PendingEditInfo) (e : PendingEditInfo), e ∈ es →
      (∀ x ∈ es, toInt32 x.rowId = x.rowId) →
      containsKey (applyEdits ov es) e.rowId e.column = true := by
  induction es with
  | nil => intro ov e hmem _; cases hmem
  | cons x rest ih =>
    intro ov e hmem hall
    have hrest : ∀ y ∈ rest, toInt32 y.rowId = y.rowId :=
      fun y hy => hall y (List.mem_cons_of_mem x hy)
    rcases List.mem_cons.mp hmem with h | h
    · subst h
      exact containsKey_applyEdits_mono rest (setEditList ov e) e.rowId e.column
        (containsKey_mergeOne_self ov e (hall e (List.mem_cons_self e rest)))
    · exact ih (setEditList ov x) e h hrest

theorem mergeOne_snd_of_found (ov : List PendingEditInfo) (e : PendingEditInfo)
    (h : containsKey ov e.rowId e.column = true) :
    (mergeOne ov e).2 = false := by
  induction ov with
  | nil => simp [containsKey] at h
  | cons x xs ih =>
    simp only [containsKey, List.any_cons, Bool.or_eq_true] at h
    by_cases hk : keyMatch x e.rowId e.column = true
    · simp [mergeOne, hk]
    · have hk' : keyMatch x e.rowId e.column = false := by simpa using hk
      rcases h with h | h
      · rw [h] at hk'; cases hk'
      · simp [mergeOne, hk', ih h]

theorem lastSetValue_foldl_from (es : List PendingEditInfo) (r : Int)
    (c : String) (a : Option String) :
    es.foldl (fun acc e => if keyMatch e r c then some e.value else acc) a
      = (lastSetValue es r c).or a := by
  induction es generalizing a with
  | nil => simp [lastSetValue]
  | cons e rest ih =>
    by_cases hk : keyMatch e r c = true
    · rw [List.foldl_cons]
      simp only [hk, if_true]
      rw [ih (some e.value)]
      show (lastSetValue rest r c).or (some e.value) = (lastSetValue (e :: rest) r c).or a
      have hcons : lastSetValue (e :: rest) r c
          = (lastSetValue rest r c).or (some e.value) := by
        show rest.foldl _ (if keyMatch e r c then some e.value else none)
            = (lastSetValue rest r c).or (some e.value)
        simp only [hk, if_true]
        exact ih (some e.value)
      rw [hcons]
      cases lastSetValue rest r c <;> rfl
    · have hk' : keyMatch e r c = false := by simpa using hk
      rw [List.foldl_cons]
      simp only [hk', Bool.false_eq_true, if_false]
      rw [ih a]
      have hcons : lastSetValue (e :: rest) r c = lastSetValue rest r c := by
        show rest.foldl _ (if keyMatch e r c then some e.value else none)
            = lastSetValue rest r c
        simp only [hk', Bool.false_eq_true, if_false]
        rfl
      rw [hcons]

theorem lastSetValue_cons_true (e : PendingEditInfo)
    (rest : List PendingEditInfo) (r : Int) (c : String)
    (hk : keyMatch e r c = true) :
    lastSetValue (e :: rest) r c = (lastSetValue rest r c).or (some e.value) := by
  show rest.foldl _ (if keyMatch e r c then some e.value else none)
      = (lastSetValue rest r c).or (some e.value)
  simp only [hk, if_true]
  exact lastSetValue_foldl_from rest r c (some e.value)

theorem lastSetValue_cons_false (e : PendingEditInfo)
    (rest : List PendingEditInfo) (r : Int) (c : String)
    (hk : keyMatch e r c = false) :
    lastSetValue (e :: rest) r c = lastSetValue rest r c := by
  show rest.foldl _ (if keyMatch e r c then some e.value else none)
      = lastSetValue rest r c
  simp only [hk, Bool.false_eq_true, if_false]
  rfl

theorem applyEdits_cons (es : List PendingEditInfo) (x : PendingEditInfo)
    (ov : List PendingEditInfo) :
    applyEdits (x :: ov) es
      = { x with value := (lastSetValue es x.rowId x.column).getD x.value }
        :: applyEdits ov (removeKey es x.rowId x.column) := by
  induction es generalizing x ov with
  | nil => simp [applyEdits, removeKey, lastSetValue]
  | cons e rest ih =>
    by_cases hk : keyMatch x e.rowId e.column = true
    · have hke : keyMatch e x.rowId x.column = true := keyMatch_comm_true hk
      have hstep : applyEdits (x :: ov) (e :: rest)
          = applyEdits ({ x with value := e.value } :: ov) rest := by
        show applyEdits (setEditList (x :: ov) e) rest
            = applyEdits ({ x with value := e.value } :: ov) rest
        simp [setEditList, mergeOne, hk]
      rw [hstep, ih]
      have hrem : removeKey (e :: rest) x.rowId x.column
          = removeKey rest x.rowId x.column := by
        simp [removeKey, List.filter_cons, hke]
      rw [lastSetValue_cons_true e rest x.rowId x.column hke, hrem]
      cases lastSetValue rest x.rowId x.column <;> rfl
    · have hk' : keyMatch x e.rowId e.column = false := by simpa using hk
      have hke : keyMatch e x.rowId x.column = false := keyMatch_comm_false hk'
      have hstep : applyEdits (x :: ov) (e :: rest)
          = applyEdits (x :: setEditList ov e) rest := by
        show applyEdits (setEditList (x :: ov) e) rest
            = applyEdits (x :: setEditList ov e) rest
        simp [setEditList, mergeOne, hk']
      rw [hstep, ih]
      have hrem : removeKey (e :: rest) x.rowId x.column
          = e :: removeKey rest x.rowId x.column := by
        simp [removeKey, List.filter_cons, hke]
      rw [lastSetValue_cons_false e rest x.rowId x.column hke, hrem]
      rfl

theorem removeKey_keeps_inrange {es : List PendingEditInfo} {r : Int}
    {c : String} (hall : ∀ x ∈ es, toInt32 x.rowId = x.rowId) :
    ∀ x ∈ removeKey es r c, toInt32 x.rowId = x.rowId :=
  fun x hx => hall x (List.mem_of_mem_filter hx)

theorem applyEdits_nil_idem_aux :
    ∀ (n : Nat) (es : List PendingEditInfo), es.length ≤ n →
      (∀ x ∈ es, toInt32 x.rowId = x.rowId) →
      applyEdits (applyEdits [] es) es = applyEdits [] es := by
  intro n
  induction n with
  | zero =>
    intro es h _
    have hnil : es = [] := List.eq_nil_of_length_eq_zero (Nat.le_zero.mp h)
    subst hnil
    rfl
  | succ n ih =>
    intro es h hall
    cases es with
    | nil => rfl
    | cons e rest =>
      have hw : toInt32 e.rowId = e.rowId := hall e (List.mem_cons_self e rest)
      have hrest : ∀ x ∈ rest, toInt32 x.rowId = x.rowId :=
        fun x hx => hall x (List.mem_cons_of_mem e hx)
      have hD : applyEdits [] (e :: rest)
          = { e with value := (lastSetValue rest e.rowId e.column).getD e.value }
            :: applyEdits [] (removeKey rest e.rowId e.column) := by
        show applyEdits (setEditList [] e) rest = _
        rw [setEditList_nil e hw]
        exact applyEdits_cons rest e []
      rw [hD, applyEdits_cons (e :: rest) _ _]
      rw [lastSetValue_cons_true _ rest e.rowId e.column (keyMatch_self e)]
      have hrem : removeKey (e :: rest) e.rowId e.column
          = removeKey rest e.rowId e.column := by
        simp [removeKey, List.filter_cons, keyMatch_self e]
      rw [hrem]
      have hlen : (removeKey rest e.rowId e.column).length ≤ n := by
        have h1 : (removeKey rest e.rowId e.column).length ≤ rest.length :=
          List.length_filter_le _ _
        have h2 : rest.length ≤ n := by
          simpa [List.length_cons, Nat.succ_le_succ_iff] using h
        omega
      rw [ih (removeKey rest e.rowId e.column) hlen
        (removeKey_keeps_inrange hrest)]
      cases lastSetValue rest e.rowId e.column <;> rfl

theorem applyEdits_idem (ov : List PendingEditInfo) :
    ∀ (es : List PendingEditInfo), (∀ x ∈ es, toInt32 x.rowId = x.rowId) →
      applyEdits (applyEdits ov es) es = applyEdits ov es := by
  induction ov with
  | nil => intro es hall; exact applyEdits_nil_idem_aux es.length es le_rfl hall
  | cons x ov' ih =>
    intro es hall
    rw [applyEdits_cons es x ov', applyEdits_cons es _ _]
    rw [ih (removeKey es x.rowId x.column) (removeKey_keeps_inrange hall)]
    cases lastSetValue es x.rowId x.column <;> rfl

theorem mergeEntries_eq_foldl_mergeStep (es ov : List PendingEditInfo) :
    mergeEntries es ov = es.foldl mergeStep (ov, 0, 0) := rfl

theorem mergeStep_expand (ov : List PendingEditInfo) (a b : Nat)
    (e : PendingEditInfo) :
    mergeStep (ov, a, b) e
      = (setEditList ov e, a + (if (mergeOne ov e).2 then 1 else 0),
         b + (if (mergeOne ov e).2 then 0 else 1)) := rfl

theorem mergeEntries_foldl_fst (es : List PendingEditInfo) :
    ∀ (ov : List PendingEditInfo) (a b : Nat),
      (es.foldl mergeStep (ov, a, b)).1 = applyEdits ov es := by
  induction es with
  | nil => intro ov a b; rfl
  | cons e rest ih =>
    intro ov a b
    rw [List.foldl_cons, mergeStep_expand]
    exact ih (setEditList ov e) _ _

theorem mergeEntries_fst (es ov : List PendingEditInfo) :
    (mergeEntries es ov).1 = applyEdits ov es :=
  mergeEntries_foldl_fst es ov 0 0

theorem mergeEntries_foldl_counts (es : List PendingEditInfo) :
    ∀ (ov : List PendingEditInfo) (a b : Nat),
      (es.foldl mergeStep (ov, a, b)).2.1 + (es.foldl mergeStep (ov, a, b)).2.2
        = a + b + es.length := by
  induction es with
  | nil => intro ov a b; rfl
  | cons e rest ih =>
    intro ov a b
    rw [List.foldl_cons, mergeStep_expand]
    rw [ih (setEditList ov e) _ _]
    cases (mergeOne ov e).2 <;> simp [List.length_cons] <;> omega

theorem mergeEntries_foldl_imported (es : List PendingEditInfo) :
    ∀ (ov : List PendingEditInfo) (a b : Nat),
      (∀ e ∈ es, containsKey ov e.rowId e.column = true) →
      (es.foldl mergeStep (ov, a, b)).2.1 = a := by
  induction es with
  | nil => intro ov a b _; rfl
  | cons e rest ih =>
    intro ov a b hall
    rw [List.foldl_cons, mergeStep_expand]
    have hhead : containsKey ov e.rowId e.column = true :=
      hall e (List.mem_cons_self e rest)
    have hsnd : (mergeOne ov e).2 = false := mergeOne_snd_of_found ov e hhead
    have hrest : ∀ x ∈ rest, containsKey (setEditList ov e) x.rowId x.column = true :=
      fun x hx => containsKey_mergeOne_mono ov e x.rowId x.column
        (hall x (List.mem_cons_of_mem e hx))
    rw [hsnd]
    simpa using ih (setEditList ov e) (a + 0) (b + 1) hrest

theorem onUndo_concat (st : EditorState) (ov : List PendingEditInfo)
    (e : PendingEditInfo) (h : st.pendingEdits = ov ++ [e]) :
    onUndo st
      = ({ st with pendingEdits := ov, undoStack := st.undoStack ++ [e] },
         "Undid edit: Row " ++ toString e.rowId ++ ", " ++ e.column) := by
  simp [onUndo, h, List.getLast?_concat, List.dropLast_concat]

theorem onUndo_empty (st : EditorState) (h : st.pendingEdits = []) :
    onUndo st = (st, "Nothing to undo") := by
  simp [onUndo, h]

theorem onRedo_concat (st : EditorState) (us : List PendingEditInfo)
    (e : PendingEditInfo) (h : st.undoStack = us ++ [e]) :
    onRedo st
      = ({ st with pendingEdits := st.pendingEdits ++ [e], undoStack := us },
         "Redid edit: Row " ++ toString e.rowId ++ ", " ++ e.column) := by
  simp [onRedo, h, List.getLast?_concat, List.dropLast_concat]

theorem onRedo_empty (st : EditorState) (h : st.undoStack = []) :
    onRedo st = (st, "Nothing to redo") := by
  simp [onRedo, h]

theorem mergeOne_found (ov : List PendingEditInfo) (r : Int) (c v : String)
    (h : containsKey ov r c = true) :
    ∃ i e, ov[i]? = some e ∧ keyMatch e r c = true
      ∧ (∀ j, j < i → ∀ x, ov[j]? = some x → keyMatch x r c = false)
      ∧ setEditList ov ⟨r, c, v⟩ = ov.set i { e with value := v } := by
  induction ov with
  | nil => simp [containsKey] at h
  | cons x xs ih =>
    by_cases hk : keyMatch x r c = true
    · refine ⟨0, x, by simp, hk, by omega, ?_⟩
      simp [setEditList, mergeOne, keyMatch, show x.rowId == r && x.column == c
        from hk]
    · have hk' : keyMatch x r c = false := by simpa using hk
      have hxs : containsKey xs r c = true := by
        simpa [containsKey, List.any_cons, hk'] using h
      obtain ⟨i, e, h1, h2, h3, h4⟩ := ih hxs
      refine ⟨i + 1, e, by simpa using h1, h2, ?_, ?_⟩
      · intro j hj y hy
        cases j with
        | zero =>
          simp only [List.getElem?_cons_zero, Option.some.injEq] at hy
          exact hy ▸ hk'
        | succ j' =>
          simp only [List.getElem?_cons_succ] at hy
          exact h3 j' (by omega) y hy
      · have hstep : setEditList (x :: xs) ⟨r, c, v⟩
            = x :: setEditList xs ⟨r, c, v⟩ := by
          simp [setEditList, mergeOne, keyMatch, show ¬(x.rowId == r && x.column == c) = true
            from by simpa [keyMatch] using hk]
        rw [hstep, h4]
        rfl

theorem intToDouble_small (n : Int) (h : n.natAbs ≤ 2 ^ 53) :
    intToDouble n = n := by
  simp only [intToDouble, natToDouble, if_pos h]
  split_ifs with hn <;> omega

theorem decodeEntry_encoded (e : PendingEditInfo) :
    decodeEntry (Json.obj
      [("row_id", Json.num e.rowId), ("column", Json.str e.column),
       ("value", Json.str e.value)])
      = { e with rowId := intToDouble e.rowId } := rfl

theorem decodeEntries_savePatch (ov : List PendingEditInfo) (fam : String) :
    decodeEntries (savePatch ov fam)
      = ov.map (fun e => { e with rowId := intToDouble e.rowId }) := by
  show (ov.map _).map decodeEntry = _
  rw [List.map_map]
  rfl

theorem savePatch_family (ov : List PendingEditInfo) (fam : String) :
    jsonToString (getField (savePatch ov fam) "family") = fam := rfl

theorem totalPages_spec (n ps : Nat) (hps : 0 < ps) :
    1 ≤ totalPages n ps ∧ n ≤ totalPages n ps * ps
      ∧ ∀ m, 1 ≤ m → n ≤ m * ps → totalPages n ps ≤ m := by
  have h1 : ((n + ps - 1) / ps) * ps ≤ n + ps - 1 :=
    (Nat.le_div_iff_mul_le hps).mp le_rfl
  have h2 : n + ps - 1 < ((n + ps - 1) / ps) * ps + ps := by
    have h := (Nat.div_lt_iff_lt_mul hps).mp (Nat.lt_succ_self ((n + ps - 1) / ps))
    calc n + ps - 1 < ((n + ps - 1) / ps + 1) * ps := h
      _ = ((n + ps - 1) / ps) * ps + ps := by ring
  by_cases h0 : (n + ps - 1) / ps = 0
  · have htp : totalPages n ps = 1 := by simp [totalPages, h0]
    rw [h0, Nat.zero_mul] at h2
    have hn : n = 0 := by omega
    refine ⟨le_rfl.trans htp.ge, ?_, fun m hm _ => htp.le.trans hm⟩
    rw [htp, hn, Nat.one_mul]
    exact Nat.zero_le ps
  · have hq1 : 1 ≤ (n + ps - 1) / ps := Nat.one_le_iff_ne_zero.mpr h0
    have htp : totalPages n ps = (n + ps - 1) / ps := by
      simp [totalPages, h0]
    rw [htp]
    have hpsle : ps ≤ ((n + ps - 1) / ps) * ps := by
      calc ps = 1 * ps := (Nat.one_mul ps).symm
        _ ≤ ((n + ps - 1) / ps) * ps := Nat.mul_le_mul_right ps hq1
    refine ⟨hq1, ?_, ?_⟩
    · -- n ≤ q * ps, linear once the product is an atom
      generalize hA : ((n + ps - 1) / ps) * ps = A at h1 h2 hpsle
      omega
    · intro m hm hnm
      by_contra hlt
      push_neg at hlt
      have hsucc : m + 1 ≤ (n + ps - 1) / ps := hlt
      have h4 : (m + 1) * ps ≤ ((n + ps - 1) / ps) * ps :=
        Nat.mul_le_mul_right ps hsucc
      have h5 : (m + 1) * ps = m * ps + ps := by ring
      rw [h5] at h4
      generalize hA : ((n + ps - 1) / ps) * ps = A at h1 h2 hpsle h4
      generalize hB : m * ps = B at hnm h4
      omega

theorem pageRows_length (rows : List Nat) (page ps : Nat) :
    (pageRows rows page ps).length
      = min (page * ps + ps) rows.length - page * ps := by
  simp [pageRows, List.length_range']

theorem pageRows_empty_of_past_end (rows : List Nat) (page ps : Nat)
    (h : rows.length ≤ page * ps) :
    pageRows rows page ps = [] := by
  have hmin : min (page * ps + ps) rows.length - page * ps = 0 := by omega
  show (List.range' (page * ps) (min (page * ps + ps) rows.length - page * ps)).map _ = []
  rw [hmin]
  rfl

theorem exportColStep_foldl (fmt : Float → String) (t : ResolvedTable)
    (edits : List PendingEditInfo) (r : Nat) :
    ∀ (l : List Nat) (acc : List String) (n : Nat),
      l.foldl (exportColStep fmt t edits r) (acc, n)
        = (acc ++ l.map (exportCellValue fmt t edits r),
           n + l.countP (cellEdited t edits r)) := by
  intro l
  induction l with
  | nil => intro acc n; simp
  | cons c rest ih =>
    intro acc n
    rw [List.foldl_cons]
    show rest.foldl (exportColStep fmt t edits r)
        (acc ++ [exportCellValue fmt t edits r c],
         n + (if cellEdited t edits r c then 1 else 0)) = _
    rw [ih]
    rw [List.map_cons, List.countP_cons]
    refine Prod.ext ?_ ?_
    · simp
    · cases h : cellEdited t edits r c <;> simp [h, Nat.add_assoc, Nat.add_comm, Nat.add_left_comm]

theorem exportRowStep_foldl (fmt : Float → String) (t : ResolvedTable)
    (edits : List PendingEditInfo) :
    ∀ (l : List Nat) (acc : List (List String)) (n : Nat),
      l.foldl (exportRowStep fmt t edits) (acc, n)
        = (acc ++ l.map (fun r =>
             (List.range t.colCount).map (exportCellValue fmt t edits r)),
           n + (l.map (fun r =>
             (List.range t.colCount).countP (cellEdited t edits r))).sum) := by
  intro l
  induction l with
  | nil => intro acc n; simp
  | cons r rest ih =>
    intro acc n
    rw [List.foldl_cons]
    have hstep : exportRowStep fmt t edits (acc, n) r
        = (acc ++ [(List.range t.colCount).map (exportCellValue fmt t edits r)],
           n + (List.range t.colCount).countP (cellEdited t edits r)) := by
      show (acc ++ [((List.range t.colCount).foldl (exportColStep fmt t edits r)
          (([] : List String), n)).1],
        ((List.range t.colCount).foldl (exportColStep fmt t edits r)
          (([] : List String), n)).2) = _
      rw [exportColStep_foldl]
      simp
    rw [hstep, ih]
    refine Prod.ext ?_ ?_
    · simp
    · simp only [List.map_cons, List.sum_cons]
      omega

theorem exportTable_spec (fmt : Float → String) (t : ResolvedTable)
    (edits : List PendingEditInfo) :
    exportTable fmt t edits
      = ((List.range t.rowCount).map (fun r =>
           (List.range t.colCount).map (exportCellValue fmt t edits r)),
         ((List.range t.rowCount).map (fun r =>
           (List.range t.colCount).countP (cellEdited t edits r))).sum) := by
  show (List.range t.rowCount).foldl (exportRowStep fmt t edits) ([], 0) = _
  rw [exportRowStep_foldl]
  simp

/-! ## Concrete states used by counterexamples and witnesses -/

/-- A loaded-family state with one pending edit (for the family-switch
claims). -/
def familySwitchState : EditorState :=
  { pendingEdits := [⟨1, "Name", "X"⟩], undoStack := [], currentFamily := "A"
    rootPath := "/data", scanLoaded := true }

/-- A state whose overlay already holds two keys (for the undo-after-update
claims). -/
def twiceEditedState : EditorState :=
  { pendingEdits := [⟨1, "Name", "A"⟩, ⟨2, "Cost", "B"⟩], undoStack := []
    currentFamily := "A", rootPath := "", scanLoaded := true }

/-- A clean state with family `"A"` selected (for the import claims). -/
def importState : EditorState :=
  { pendingEdits := [], undoStack := [], currentFamily := "A", rootPath := ""
    scanLoaded := true }

/-- A syntactically valid patch document whose single edit entry lacks
`row_id`. -/
def missingRowIdPatch : Json :=
  Json.obj
    [("family", Json.str "A"),
     ("edits", Json.arr
        [Json.obj [("column", Json.str "Cost"), ("value", Json.str "5")]])]

/-! ## Claim theorems -/

/-- C1: for every sequence of insert-or-update operations (cell edits and
patch-import entries — redo re-insertions excluded) whose row ids are in
the 32-bit range of the stored `rowId` field, the overlay `m_pendingEdits`
holds at most one entry per (row id, column) key and `findPendingEdit`
returns the most recently set value for that key. -/
theorem setEdit_sequences_unique_keys_latest_value
    (ops : List PendingEditInfo) (r : Int) (c : String)
    (hall : ∀ x ∈ ops, toInt32 x.rowId = x.rowId) :
    countKey (applyEdits [] ops) r c ≤ 1
    ∧ findPendingEdit (applyEdits [] ops) r c = lastSetValue ops r c := by
  constructor
  · have h := countKey_applyEdits_le ops [] r c hall
    simpa [countKey] using h
  · exact find_applyEdits ops [] r c hall

/-- C1 witness: a concrete edit/update/import sequence with in-range row
ids has unique keys and latest-value lookup. -/
theorem setEdit_sequences_unique_keys_latest_value_witness :
    (∀ x ∈ ([⟨1, "Name", "X"⟩, ⟨2, "Cost", "5"⟩, ⟨1, "Name", "Y"⟩] :
        List PendingEditInfo), toInt32 x.rowId = x.rowId)
    ∧ (countKey
        (applyEdits [] [⟨1, "Name", "X"⟩, ⟨2, "Cost", "5"⟩, ⟨1, "Name", "Y"⟩])
        1 "Name" ≤ 1
      ∧ findPendingEdit
          (applyEdits [] [⟨1, "Name", "X"⟩, ⟨2, "Cost", "5"⟩, ⟨1, "Name", "Y"⟩])
          1 "Name"
        = lastSetValue [⟨1, "Name", "X"⟩, ⟨2, "Cost", "5"⟩, ⟨1, "Name", "Y"⟩]
            1 "Name") :=
  ⟨by decide,
   setEdit_sequences_unique_keys_latest_value
     [⟨1, "Name", "X"⟩, ⟨2, "Cost", "5"⟩, ⟨1, "Name", "Y"⟩] 1 "Name"
     (by decide)⟩

/-- C1 counterexample: two ways the overlay duplicates a key. First, after
edit (1,"Name")="X"; undo; edit (1,"Name")="Y"; redo, the overlay holds two
entries for (1,"Name") — `onRedo` re-appends without the duplicate check.
Second, with no redo at all: two edits keyed by the 64-bit row id
`2 ^ 32 + 5` are both stored narrowed to 5 (the struct field is a 32-bit
`int`) because each duplicate check compares the stored 5 against the
un-narrowed `2 ^ 32 + 5`. -/
theorem redo_duplicates_overlay_key :
    ¬ (countKey ((onRedo (onEditRequested
          ((onUndo (onEditRequested initState 1 "Name" "X")).1)
          1 "Name" "Y")).1).pendingEdits 1 "Name" ≤ 1)
    ∧ ¬ (countKey
          (applyEdits [] [⟨2 ^ 32 + 5, "Cost", "1"⟩, ⟨2 ^ 32 + 5, "Cost", "2"⟩])
          5 "Cost" ≤ 1) := by
  refine ⟨by decide, by decide⟩

/-- Helper for C2: a patch import that reaches the merge path always leaves
`m_undoStack` empty (line 651 of `MainWindow.cpp`). -/
theorem importPatch_clears_undoStack (j : Json) (p : Bool) (st : EditorState)
    (hfam : ¬ st.currentFamily = "")
    (hok : jsonToString (getField j "family") = st.currentFamily ∨ p = true) :
    ((importPatch (some j) p st).1).undoStack = [] := by
  have hcond : ¬(jsonToString (getField j "family") ≠ st.currentFamily ∧ ¬p) := by
    rcases hok with h | h
    · intro hc; exact hc.1 h
    · intro hc; rw [h] at hc; exact hc.2 (by trivial)
  unfold importPatch
  rw [if_neg hfam]
  show ((if jsonToString (getField j "family") ≠ st.currentFamily ∧ ¬p
      then (st, "") else _).1).undoStack = []
  rw [if_neg hcond]

/-- C2: `setEdit` never touches the redo stack (`m_undoStack`); only a
patch import that reaches the merge path empties it. Concretely, after
edit (1,"Name")="X"; undo; edit (2,"Cost")="5", `onRedo` re-inserts
(1,"Name")="X" instead of being a no-op. -/
theorem setEdit_keeps_redo_stack_import_clears_it
    (st : EditorState) (r : Int) (c v : String) (j : Json) (p : Bool)
    (st' : EditorState) :
    (onEditRequested st r c v).undoStack = st.undoStack
    ∧ (¬ st'.currentFamily = "" →
        (jsonToString (getField j "family") = st'.currentFamily ∨ p = true) →
        ((importPatch (some j) p st').1).undoStack = [])
    ∧ (onRedo (onEditRequested
          ((onUndo (onEditRequested initState 1 "Name" "X")).1)
          2 "Cost" "5")).1.pendingEdits
        = [⟨2, "Cost", "5"⟩, ⟨1, "Name", "X"⟩] := by
  refine ⟨rfl, ?_, by decide⟩
  intro hfam hok
  exact importPatch_clears_undoStack j p st' hfam hok

/-- C2 witness: concrete instantiation of the quantified parts — an import
into a selected family clears the redo stack. -/
theorem setEdit_keeps_redo_stack_import_clears_it_witness :
    (¬ importState.currentFamily = "")
    ∧ ((importPatch (some Json.null) true importState).1).undoStack = [] :=
  ⟨by decide,
   (setEdit_keeps_redo_stack_import_clears_it importState 0 "" "" Json.null true
      importState).2.1 (by decide) (Or.inr rfl)⟩

/-- C2 counterexample: after edit (1,"Name")="X"; undo; edit (2,"Cost")="5",
the redo stack is not empty and `onRedo` is not a no-op — it restores the
undone edit. -/
theorem divergent_edit_leaves_redo_nonempty :
    ¬ ((onEditRequested ((onUndo (onEditRequested initState 1 "Name" "X")).1)
          2 "Cost" "5").undoStack = []
       ∧ (onRedo (onEditRequested
            ((onUndo (onEditRequested initState 1 "Name" "X")).1)
            2 "Cost" "5")).1
          = onEditRequested ((onUndo (onEditRequested initState 1 "Name" "X")).1)
            2 "Cost" "5") := by
  decide

/-- C3: loading a different family does not discard the edit overlay or the
redo stack — `onFamilySelected` only changes the current family name; only a
successful root-folder load clears the overlay, and even it keeps the redo
stack. -/
theorem family_switch_preserves_overlay_and_history
    (st : EditorState) (name path : String) (r : Int) (c : String) :
    (onFamilySelected st name).pendingEdits = st.pendingEdits
    ∧ (onFamilySelected st name).undoStack = st.undoStack
    ∧ (st.scanLoaded = true → (onFamilySelected st name).currentFamily = name)
    ∧ findPendingEdit (loadFolder st path true).pendingEdits r c = none
    ∧ (loadFolder st path true).undoStack = st.undoStack := by
  refine ⟨?_, ?_, ?_, rfl, rfl⟩
  · unfold onFamilySelected
    split <;> rfl
  · unfold onFamilySelected
    split <;> rfl
  · intro h
    unfold onFamilySelected
    rw [if_pos h]

/-- C3 witness: concrete family switch with a scan loaded. -/
theorem family_switch_preserves_overlay_and_history_witness :
    familySwitchState.scanLoaded = true
    ∧ (onFamilySelected familySwitchState "B").currentFamily = "B" :=
  ⟨rfl,
   (family_switch_preserves_overlay_and_history familySwitchState "B" "/x" 0
      "").2.2.1 rfl⟩

/-- C3 counterexample: with one pending edit and family "A" selected,
switching to family "B" leaves `getEdit` still returning the old edit —
the overlay is not discarded. -/
theorem family_switch_keeps_pending_edit :
    ¬ (findPendingEdit (onFamilySelected familySwitchState "B").pendingEdits
        1 "Name" = none) := by
  decide

/-- C4: undo immediately after a `setEdit` that inserted a fresh (absent)
key in the stored 32-bit row-id range removes exactly that edit (lookup
becomes absent and the overlay returns to its previous value), and a redo
immediately after restores the exact value; undo on an empty overlay and
redo on an empty redo stack are no-ops that return the state unchanged
with a status message. -/
theorem fresh_edit_undo_redo_roundtrip (st : EditorState) (r : Int)
    (c v : String) :
    (toInt32 r = r → findPendingEdit st.pendingEdits r c = none →
      (onUndo (onEditRequested st r c v)).1.pendingEdits = st.pendingEdits
      ∧ findPendingEdit
          ((onUndo (onEditRequested st r c v)).1.pendingEdits) r c = none
      ∧ (onRedo (onUndo (onEditRequested st r c v)).1).1.pendingEdits
          = (onEditRequested st r c v).pendingEdits
      ∧ findPendingEdit
          ((onRedo (onUndo (onEditRequested st r c v)).1).1.pendingEdits) r c
          = some v)
    ∧ (st.pendingEdits = [] → onUndo st = (st, "Nothing to undo"))
    ∧ (st.undoStack = [] → onRedo st = (st, "Nothing to redo")) := by
  refine ⟨?_, onUndo_empty st, onRedo_empty st⟩
  intro hr h
  have hck : containsKey st.pendingEdits r c = false :=
    (findPendingEdit_eq_none_iff st.pendingEdits r c).mp h
  have hst1 : (onEditRequested st r c v).pendingEdits
      = st.pendingEdits ++ [⟨r, c, v⟩] := by
    show setEditList st.pendingEdits ⟨r, c, v⟩ = _
    rw [setEditList, mergeOne_not_found st.pendingEdits ⟨r, c, v⟩ hck]
    have hnarrow : ({ rowId := toInt32 r, column := c, value := v }
        : PendingEditInfo) = ⟨r, c, v⟩ := by rw [hr]
    show st.pendingEdits
        ++ [({ rowId := toInt32 r, column := c, value := v } : PendingEditInfo)]
      = _
    rw [hnarrow]
  have hundo := onUndo_concat (onEditRequested st r c v) st.pendingEdits
    ⟨r, c, v⟩ hst1
  have hst2p : (onUndo (onEditRequested st r c v)).1.pendingEdits
      = st.pendingEdits := by rw [hundo]
  have hst2u : (onUndo (onEditRequested st r c v)).1.undoStack
      = (onEditRequested st r c v).undoStack ++ [⟨r, c, v⟩] := by rw [hundo]
  have hredo := onRedo_concat (onUndo (onEditRequested st r c v)).1
    (onEditRequested st r c v).undoStack ⟨r, c, v⟩ hst2u
  have hfind : findPendingEdit (st.pendingEdits ++ [⟨r, c, v⟩]) r c
      = some v := by
    rw [findPendingEdit_append_of_none st.pendingEdits _ r c h]
    simp [findPendingEdit, List.find?, keyMatch]
  refine ⟨hst2p, by rw [hst2p]; exact h, ?_, ?_⟩
  · rw [hredo]
    show (onUndo (onEditRequested st r c v)).1.pendingEdits ++ [⟨r, c, v⟩] = _
    rw [hst2p, hst1]
  · rw [hredo]
    show findPendingEdit
      ((onUndo (onEditRequested st r c v)).1.pendingEdits ++ [⟨r, c, v⟩]) r c = _
    rw [hst2p]
    exact hfind

/-- C4 witness: the round trip at a concrete fresh key, and the two no-op
branches at the initial state. -/
theorem fresh_edit_undo_redo_roundtrip_witness :
    (toInt32 7 = 7 ∧ findPendingEdit initState.pendingEdits 7 "Cost" = none
      ∧ findPendingEdit
          ((onRedo (onUndo (onEditRequested initState 7 "Cost" "42")).1).1.pendingEdits)
          7 "Cost" = some "42")
    ∧ (initState.pendingEdits = []
      ∧ onUndo initState = (initState, "Nothing to undo"))
    ∧ (initState.undoStack = []
      ∧ onRedo initState = (initState, "Nothing to redo")) :=
  ⟨⟨by decide, by decide,
    ((fresh_edit_undo_redo_roundtrip initState 7 "Cost" "42").1 (by decide)
      (by decide)).2.2.2⟩,
   ⟨rfl, (fresh_edit_undo_redo_roundtrip initState 7 "Cost" "42").2.1 rfl⟩,
   ⟨rfl, (fresh_edit_undo_redo_roundtrip initState 7 "Cost" "42").2.2 rfl⟩⟩

/-- C4 counterexample: when the edited key already exists and is not the
last-appended overlay entry, the undo that follows removes a different edit
— lookup of the edited key is not absent afterwards. -/
theorem undo_after_update_removes_other_edit :
    ¬ (findPendingEdit
        ((onUndo (onEditRequested twiceEditedState 1 "Name" "X")).1.pendingEdits)
        1 "Name" = none) := by
  decide

theorem toInt32_fix_natAbs {n : Int} (h : toInt32 n = n) :
    n.natAbs ≤ 2 ^ 53 := by
  simp only [toInt32] at h
  have e1 : (2 : Int) ^ 31 = 2147483648 := by norm_num
  have e2 : (2 : Int) ^ 32 = 4294967296 := by norm_num
  rw [e1, e2] at h
  have e3 : (2 : Nat) ^ 53 = 9007199254740992 := by norm_num
  rw [e3]
  omega

/-- C5: decoding the patch document produced by `onSavePatch` reproduces the
overlay's (row id, column, value) triples and the family name exactly, for
every overlay whose row ids are storable in the struct's 32-bit `rowId`
field — the only overlays the program can hold. Such row ids pass
losslessly through the IEEE-754 double of `QJsonValue::toDouble`. Column
names and values round-trip as text always. The 64-bit losslessness of the
claim fails earlier, at insert time: see the counterexample. -/
theorem patch_roundtrip_int32_row_ids (ov : List PendingEditInfo)
    (fam : String) (h : ∀ e ∈ ov, toInt32 e.rowId = e.rowId) :
    decodeEntries (savePatch ov fam) = ov
    ∧ jsonToString (getField (savePatch ov fam) "family") = fam := by
  refine ⟨?_, savePatch_family ov fam⟩
  rw [decodeEntries_savePatch]
  have hid : ∀ e ∈ ov,
      ({ e with rowId := intToDouble e.rowId } : PendingEditInfo) = e := by
    intro e he
    have hd := intToDouble_small e.rowId (toInt32_fix_natAbs (h e he))
    cases e
    simp_all
  calc ov.map (fun e => { e with rowId := intToDouble e.rowId })
      = ov.map id := List.map_congr_left hid
    _ = ov := List.map_id ov

/-- C5 witness: a two-edit overlay with storable row ids round-trips
exactly. -/
theorem patch_roundtrip_int32_row_ids_witness :
    (∀ e ∈ ([⟨1, "Name", "X"⟩, ⟨2, "Cost", "5"⟩] : List PendingEditInfo),
      toInt32 e.rowId = e.rowId)
    ∧ (decodeEntries (savePatch [⟨1, "Name", "X"⟩, ⟨2, "Cost", "5"⟩] "Weapons")
        = [⟨1, "Name", "X"⟩, ⟨2, "Cost", "5"⟩]
      ∧ jsonToString (getField
          (savePatch [⟨1, "Name", "X"⟩, ⟨2, "Cost", "5"⟩] "Weapons") "family")
        = "Weapons") :=
  ⟨by decide,
   patch_roundtrip_int32_row_ids [⟨1, "Name", "X"⟩, ⟨2, "Cost", "5"⟩] "Weapons"
     (by decide)⟩

/-- C5 counterexample: an edit keyed by the 64-bit row id `2 ^ 32 + 5` is
stored narrowed to 5 (`PendingEditInfo.rowId` is a 32-bit `int`), so the
patch written for it and decoded back carries 5, not the original id — the
row id is not round-tripped losslessly as a 64-bit signed integer. -/
theorem insert_narrows_row_id_breaking_roundtrip :
    decodeEntries
        (savePatch (setEditList [] ⟨(2 : Int) ^ 32 + 5, "Cost", "5"⟩) "Weapons")
      ≠ [⟨(2 : Int) ^ 32 + 5, "Cost", "5"⟩]
    ∧ decodeEntries
        (savePatch (setEditList [] ⟨(2 : Int) ^ 32 + 5, "Cost", "5"⟩) "Weapons")
      = [⟨5, "Cost", "5"⟩] := by
  refine ⟨by decide, by decide⟩

/-- C6: only a malformed payload (a JSON parse failure) aborts the import,
and then the whole state is unchanged; the structural conditions the claim
lists are not parse errors — a missing `family` reads as the empty string
(at most triggering the family-mismatch confirmation), a missing or
non-array `edits` decodes to zero entries, and an edit entry missing
`row_id` or `column` is decoded with row id 0 or an empty column name. -/
theorem import_parse_error_only_for_malformed_json
    (p : Bool) (st : EditorState) (fields efields : List (String × Json)) :
    ((importPatch none p st).1 = st)
    ∧ (findField fields "family" = none →
        jsonToString (getField (Json.obj fields) "family") = "")
    ∧ (findField fields "edits" = none →
        decodeEntries (Json.obj fields) = [])
    ∧ (findField efields "row_id" = none →
        (decodeEntry (Json.obj efields)).rowId = 0)
    ∧ (findField efields "column" = none →
        (decodeEntry (Json.obj efields)).column = "") := by
  refine ⟨?_, ?_, ?_, ?_, ?_⟩
  · unfold importPatch
    split <;> rfl
  · intro h
    simp [jsonToString, getField, h]
  · intro h
    simp [decodeEntries, jsonToArray, getField, h]
  · intro h
    simp [decodeEntry, jsonToInt, jsonToObjFields, h]
  · intro h
    simp [decodeEntry, jsonToString, jsonToObjFields, h]

/-- C6 witness: the parse-failure branch leaves a concrete state unchanged,
and the missing-field defaults at empty objects. -/
theorem import_parse_error_only_for_malformed_json_witness :
    ((importPatch none false importState).1 = importState)
    ∧ (findField [] "edits" = none ∧ decodeEntries (Json.obj []) = [])
    ∧ (findField [] "row_id" = none ∧ (decodeEntry (Json.obj [])).rowId = 0) :=
  ⟨(import_parse_error_only_for_malformed_json false importState [] []).1,
   ⟨rfl, (import_parse_error_only_for_malformed_json false importState [] []).2.2.1 rfl⟩,
   ⟨rfl, (import_parse_error_only_for_malformed_json false importState [] []).2.2.2.1 rfl⟩⟩

/-- C6 counterexample: a well-formed document whose edit entry lacks
`row_id` is not a parse error — the import applies it with row id 0, so the
overlay does not stay unchanged. -/
theorem missing_row_id_entry_is_imported :
    ¬ ((importPatch (some missingRowIdPatch) false importState).1.pendingEdits
        = importState.pendingEdits) := by
  decide

/-- C7: merging the same decoded patch twice yields an overlay identical to
merging it once and the second merge reports zero newly inserted keys,
provided every entry's row id is storable in the struct's 32-bit `rowId`
field; each entry is counted exactly once as either newly inserted or
updated. For an entry with a wider 64-bit row id the insert narrows the
stored key while the re-import compares it un-narrowed, so the second
pass appends a duplicate (see the counterexample). -/
theorem import_merge_idempotent (es ov : List PendingEditInfo)
    (hw : ∀ e ∈ es, toInt32 e.rowId = e.rowId) :
    (mergeEntries es (mergeEntries es ov).1).1 = (mergeEntries es ov).1
    ∧ (mergeEntries es (mergeEntries es ov).1).2.1 = 0
    ∧ (mergeEntries es ov).2.1 + (mergeEntries es ov).2.2 = es.length := by
  refine ⟨?_, ?_, ?_⟩
  · rw [mergeEntries_fst es ((mergeEntries es ov).1), mergeEntries_fst es ov]
    exact applyEdits_idem ov es hw
  · have hall : ∀ e ∈ es,
        containsKey (applyEdits ov es) e.rowId e.column = true :=
      fun e he => containsKey_applyEdits_mem es ov e he hw
    show ((es.foldl mergeStep ((mergeEntries es ov).1, 0, 0))).2.1 = 0
    rw [mergeEntries_fst es ov]
    exact mergeEntries_foldl_imported es (applyEdits ov es) 0 0 hall
  · have h := mergeEntries_foldl_counts es ov 0 0
    simpa using h

/-- C7 witness: a three-entry patch (with a duplicate in-range key) merged
twice into the empty overlay — identical overlay, zero newly inserted the
second time, counts summing to the entry count. -/
theorem import_merge_idempotent_witness :
    (∀ e ∈ ([⟨1, "k", "1"⟩, ⟨1, "k", "2"⟩, ⟨2, "j", "9"⟩] :
        List PendingEditInfo), toInt32 e.rowId = e.rowId)
    ∧ ((mergeEntries [⟨1, "k", "1"⟩, ⟨1, "k", "2"⟩, ⟨2, "j", "9"⟩]
          (mergeEntries [⟨1, "k", "1"⟩, ⟨1, "k", "2"⟩, ⟨2, "j", "9"⟩] []).1).1
        = (mergeEntries [⟨1, "k", "1"⟩, ⟨1, "k", "2"⟩, ⟨2, "j", "9"⟩] []).1
      ∧ (mergeEntries [⟨1, "k", "1"⟩, ⟨1, "k", "2"⟩, ⟨2, "j", "9"⟩]
          (mergeEntries [⟨1, "k", "1"⟩, ⟨1, "k", "2"⟩, ⟨2, "j", "9"⟩] []).1).2.1
        = 0
      ∧ (mergeEntries [⟨1, "k", "1"⟩, ⟨1, "k", "2"⟩, ⟨2, "j", "9"⟩] []).2.1
        + (mergeEntries [⟨1, "k", "1"⟩, ⟨1, "k", "2"⟩, ⟨2, "j", "9"⟩] []).2.2
        = ([⟨1, "k", "1"⟩, ⟨1, "k", "2"⟩, ⟨2, "j", "9"⟩] :
            List PendingEditInfo).length) :=
  ⟨by decide,
   import_merge_idempotent [⟨1, "k", "1"⟩, ⟨1, "k", "2"⟩, ⟨2, "j", "9"⟩] []
     (by decide)⟩

/-- C7 counterexample: an entry keyed by the 64-bit row id `2 ^ 32 + 5` is
stored narrowed to 5, but re-importing the same patch compares the stored 5
against the un-narrowed `2 ^ 32 + 5`, appends a duplicate, and reports one
newly inserted on the second pass — the merge is not idempotent. -/
theorem wide_row_id_reimport_not_idempotent :
    ¬ ((mergeEntries [⟨(2 : Int) ^ 32 + 5, "Cost", "5"⟩]
          (mergeEntries [⟨(2 : Int) ^ 32 + 5, "Cost", "5"⟩] []).1).1
        = (mergeEntries [⟨(2 : Int) ^ 32 + 5, "Cost", "5"⟩] []).1
      ∧ (mergeEntries [⟨(2 : Int) ^ 32 + 5, "Cost", "5"⟩]
          (mergeEntries [⟨(2 : Int) ^ 32 + 5, "Cost", "5"⟩] []).1).2.1 = 0) := by
  decide

/-- A concrete two-by-two resolved table (rows with stable ids 1 and 2,
columns "Name" and "Cost") for the export witness. -/
def sampleTable : ResolvedTable :=
  { rowCount := 2, colCount := 2
    rowId := fun r => (r : Int) + 1
    colName := fun c => if c = 0 then "Name" else "Cost"
    cell := fun r c =>
      if c = 0 then (if r = 0 then .str "Sword" else .str "Shield")
      else .int 10 }

/-- A float formatter that is never exercised by the witness table (its
cells are strings and integers). -/
def unusedFloatFmt : Float → String := fun _ => ""

/-- C8: export walks the full row set; every cell whose (row id, column
name) key has a pending edit is emitted from the overlay, every other cell
comes from the accessor through the value switch, and the `editsApplied`
counter equals the number of cells whose key has a pending edit. -/
theorem export_composites_overlay_over_accessor (fmt : Float → String)
    (t : ResolvedTable) (edits : List PendingEditInfo) :
    (exportTable fmt t edits).2
      = ((List.range t.rowCount).map (fun r =>
          (List.range t.colCount).countP (fun c =>
            (findPendingEdit edits (t.rowId r) (t.colName c)).isSome))).sum
    ∧ ∀ r c, r < t.rowCount → c < t.colCount →
        ((exportTable fmt t edits).1[r]?.bind (fun row => row[c]?))
          = some (match findPendingEdit edits (t.rowId r) (t.colName c) with
              | some v => v
              | none => formatCellValue fmt (t.cell r c)) := by
  rw [exportTable_spec]
  refine ⟨rfl, ?_⟩
  intro r c hr hc
  rw [List.getElem?_map, List.getElem?_range hr]
  show ((List.range t.colCount).map (exportCellValue fmt t edits r))[c]? = _
  rw [List.getElem?_map, List.getElem?_range hc]
  rfl

/-- C8 witness: on the sample table with a pending edit "15" at
(row id 1, "Cost"), export emits "15" for that cell and counts exactly one
substituted cell. -/
theorem export_composites_overlay_over_accessor_witness :
    (0 < sampleTable.rowCount ∧ 1 < sampleTable.colCount)
    ∧ ((exportTable unusedFloatFmt sampleTable [⟨1, "Cost", "15"⟩]).1[0]?.bind
        (fun row => row[1]?)) = some "15"
    ∧ (exportTable unusedFloatFmt sampleTable [⟨1, "Cost", "15"⟩]).2 = 1 := by
  refine ⟨⟨by decide, by decide⟩, ?_, by decide⟩
  have h := (export_composites_overlay_over_accessor unusedFloatFmt sampleTable
    [⟨1, "Cost", "15"⟩]).2 0 1 (by decide) (by decide)
  simpa using h

/-- C9: the page count is the ceiling of visible rows over page size,
clamped to at least 1 (also for zero rows); with page size 2 and 5 visible
rows page 2 shows exactly 1 row and page 3 shows 0 rows; any page index at
or past the page count yields the empty slice without error. -/
theorem pagination_ceil_clamped_and_slices (rows : List Nat) (page ps : Nat)
    (hps : 0 < ps) :
    (1 ≤ totalPages rows.length ps
      ∧ rows.length ≤ totalPages rows.length ps * ps
      ∧ ∀ m, 1 ≤ m → rows.length ≤ m * ps → totalPages rows.length ps ≤ m)
    ∧ (rows.length = 0 → totalPages rows.length ps = 1)
    ∧ (rows.length = 5 →
        (pageRows rows 2 2).length = 1 ∧ (pageRows rows 3 2).length = 0)
    ∧ (totalPages rows.length ps ≤ page → pageRows rows page ps = []) := by
  refine ⟨totalPages_spec rows.length ps hps, ?_, ?_, ?_⟩
  · intro h
    rw [h]
    have hz : (ps - 1) / ps = 0 := Nat.div_eq_of_lt (by omega)
    simp [totalPages, hz]
  · intro h5
    constructor
    · rw [pageRows_length, h5]
      decide
    · rw [pageRows_length, h5]
      decide
  · intro hpage
    apply pageRows_empty_of_past_end
    calc rows.length ≤ totalPages rows.length ps * ps :=
          (totalPages_spec rows.length ps hps).2.1
      _ ≤ page * ps := Nat.mul_le_mul_right ps hpage

/-- C9 witness: the concrete 5-row, page-size-2 table, including a page
index past the end. -/
theorem pagination_ceil_clamped_and_slices_witness :
    (0 < 2 ∧ ([10, 20, 30, 40, 50] : List Nat).length = 5)
    ∧ ((pageRows [10, 20, 30, 40, 50] 2 2).length = 1
        ∧ (pageRows [10, 20, 30, 40, 50] 3 2).length = 0)
    ∧ pageRows [10, 20, 30, 40, 50] 3 2 = [] :=
  ⟨⟨by decide, by decide⟩,
   (pagination_ceil_clamped_and_slices [10, 20, 30, 40, 50] 3 2
      (by decide)).2.2.1 (by decide),
   (pagination_ceil_clamped_and_slices [10, 20, 30, 40, 50] 3 2
      (by decide)).2.2.2 (by decide)⟩

/-- C10: a `setEdit` on a key already present updates only the first entry
with that key, in place — the overlay is the old list with exactly that
position's value replaced (so every other entry and the insertion order are
untouched), the redo stack is not modified, and the undo that follows still
removes the last-appended entry of the overlay. -/
theorem update_in_place_frame (st : EditorState) (r : Int) (c v : String)
    (h : containsKey st.pendingEdits r c = true) :
    (onEditRequested st r c v).undoStack = st.undoStack
    ∧ (∃ i e, st.pendingEdits[i]? = some e ∧ keyMatch e r c = true
        ∧ (∀ j, j < i → ∀ x, st.pendingEdits[j]? = some x →
            keyMatch x r c = false)
        ∧ (onEditRequested st r c v).pendingEdits
            = st.pendingEdits.set i { e with value := v })
    ∧ (onUndo (onEditRequested st r c v)).1.pendingEdits
        = (onEditRequested st r c v).pendingEdits.dropLast := by
  obtain ⟨i, e, h1, h2, h3, h4⟩ := mergeOne_found st.pendingEdits r c v h
  refine ⟨rfl, ⟨i, e, h1, h2, h3, h4⟩, ?_⟩
  have hlen : (onEditRequested st r c v).pendingEdits.length
      = st.pendingEdits.length := by
    show (setEditList st.pendingEdits ⟨r, c, v⟩).length = _
    rw [h4, List.length_set]
  have hpos : 0 < st.pendingEdits.length := by
    cases hpe : st.pendingEdits with
    | nil => rw [hpe] at h; simp [containsKey] at h
    | cons a l => simp [hpe]
  have hne : (onEditRequested st r c v).pendingEdits ≠ [] := by
    intro hnil
    rw [hnil] at hlen
    simp at hlen
    omega
  rcases List.eq_nil_or_concat ((onEditRequested st r c v).pendingEdits)
    with hnil | ⟨ov, e', hcat⟩
  · exact absurd hnil hne
  · rw [List.concat_eq_append] at hcat
    rw [onUndo_concat (onEditRequested st r c v) ov e' hcat, hcat]
    simp

/-- C10 witness: updating the first of two overlay entries in place; undo
afterwards still drops the last entry. -/
theorem update_in_place_frame_witness :
    containsKey twiceEditedState.pendingEdits 1 "Name" = true
    ∧ (onEditRequested twiceEditedState 1 "Name" "X").undoStack
        = twiceEditedState.undoStack
    ∧ (onUndo (onEditRequested twiceEditedState 1 "Name" "X")).1.pendingEdits
        = (onEditRequested twiceEditedState 1 "Name" "X").pendingEdits.dropLast :=
  ⟨by decide,
   (update_in_place_frame twiceEditedState 1 "Name" "X" (by decide)).1,
   (update_in_place_frame twiceEditedState 1 "Name" "X" (by decide)).2.2⟩

end TableViewer
